import Mathlib

/-!
Verification of the GitDiagram++ repository analyzer (`app.py`).

The development shallowly embeds the two core components of the program:

* the recursive file-tree builder `_build_file_tree` (here `build_file_tree`)
  together with `_detect_language`, `_count_files`, `_get_files_by_extension`
  and the callers `_analyze_file_structure` / `_analyze_dependencies`;
* the import extractor `_extract_python_imports`
  (here `extract_python_imports`), with its structured-parse strategy and its
  line-oriented regex fallback.

External collaborators (the GitHub API client and the Python `ast` parser)
are modelled as oracle functions passed in as parameters:

* a directory listing function `get : String → Except Unit (List RawEntry)`
  stands for `repo.get_contents`; `Except.error ()` is a raised exception;
* a parse oracle `astP : String → Option (List PyNode)` stands for
  `ast.parse` followed by `ast.walk`: `none` means `ast.parse` raised,
  `some nodes` is the walk order sequence of nodes (nodes that are neither
  `ast.Import` nor `ast.ImportFrom` appear as `PyNode.other`).

A listing entry may be malformed (`RawEntry.bad`): any attribute access on it
raises, which the embedding signals with `Except.error ()` exactly where the
Python code would raise.  The unbounded recursion of the Python tree walk is
modelled with a fuel parameter; claims are stated for every fuel value, with
the depth actually exercised by a listing oracle always finite in the claims.

The string kinds `"import"` / `"from_import"` stored in `Dependency` are the
source's `import_type` values; the specification calls them `Direct` and
`FromImport` respectively.
-/

/-! ## Basic list and string utilities -/

/-- Membership test on a list of strings (`x in xs` in Python). -/
def strMem : List String → String → Bool
  | [], _ => false
  | x :: t, s => (x == s) || strMem t s

/-- All strings in the list pairwise distinct. -/
def nodupBy : List String → Bool
  | [] => true
  | x :: t => (!(strMem t x)) && nodupBy t

/-- Membership test on a list of characters. -/
def chMem : List Char → Char → Bool
  | [], _ => false
  | x :: t, c => (x == c) || chMem t c

/-- Does the second list start with the first one? -/
def listStarts : List Char → List Char → Bool
  | [], _ => true
  | _ :: _, [] => false
  | a :: as, b :: bs => (a == b) && listStarts as bs

/-- Python `s.endswith(suf)` on code-point lists. -/
def listEnds (s suf : List Char) : Bool :=
  listStarts suf.reverse s.reverse

/-- Python `str.endswith` on strings. -/
def strEndsWith (s suf : String) : Bool :=
  listEnds s.toList suf.toList

/-- Python `str.lower` (ASCII case folding suffices for the extension table). -/
def strLower (s : String) : String :=
  String.mk (s.toList.map Char.toLower)

/-- Python `str.split(sep)` for a single character separator:
`splitOnChar c "" = [[]]`, exactly like `"".split(c) == [""]`. -/
def splitOnChar (c : Char) : List Char → List (List Char)
  | [] => [[]]
  | x :: t =>
    match splitOnChar c t with
    | [] => [[]]
    | h :: r => if x == c then [] :: h :: r else (x :: h) :: r

/-- Index of the last occurrence of a character (`str.rfind`). -/
def lastIdxOf : List Char → Char → Option Nat
  | [], _ => none
  | x :: t, c =>
    match lastIdxOf t c with
    | some j => some (j + 1)
    | none => if x == c then some 0 else none

/-- `pathlib.PurePath(name).suffix` for a final path component `name`
(CPython: `i = name.rfind('.'); name[i:] if 0 < i < len(name) - 1 else ''`).
The listing entry names fed to it by the program contain no slash. -/
def strSuffix (s : String) : String :=
  let cs := s.toList
  match lastIdxOf cs '.' with
  | none => ""
  | some i => if 0 < i ∧ i + 1 < cs.length then String.mk (cs.drop i) else ""

/-- Concatenation of the images of a list (`List.flatMap`, kept local so its
equations are under our control). -/
def flatMapL {α β : Type} (f : α → List β) : List α → List β
  | [] => []
  | x :: t => f x ++ flatMapL f t

/-- First-key-wins association lookup on a string-keyed list. -/
def lookupStr : List (String × String) → String → Option String
  | [], _ => none
  | (k, v) :: t, key => if k = key then some v else lookupStr t key

/-! ## Language detection (`_detect_language`, app.py lines 166-196) -/

/-- The static extension-to-language table of `_detect_language`. -/
def extTable : List (String × String) :=
  [(".py", "Python"), (".js", "JavaScript"), (".ts", "TypeScript"),
   (".java", "Java"), (".cpp", "C++"), (".c", "C"), (".cs", "C#"),
   (".go", "Go"), (".rs", "Rust"), (".php", "PHP"), (".rb", "Ruby"),
   (".swift", "Swift"), (".kt", "Kotlin"), (".scala", "Scala"),
   (".r", "R"), (".sql", "SQL"), (".sh", "Shell"), (".yml", "YAML"),
   (".yaml", "YAML"), (".json", "JSON"), (".xml", "XML"),
   (".html", "HTML"), (".css", "CSS"), (".md", "Markdown")]

/-- `_detect_language`: `extensions.get(Path(filename).suffix.lower(), 'Unknown')`. -/
def detect_language (filename : String) : String :=
  (lookupStr extTable (strLower (strSuffix filename))).getD "Unknown"

/-! ## Import extraction (`_extract_python_imports`, app.py lines 244-283) -/

/-- A dependency edge (`Dependency` dataclass, app.py lines 44-49).  The field
the source calls `import_type` holds `"import"` (spec: `Direct`) or
`"from_import"` (spec: `FromImport`). -/
structure Dependency where mk :: (from_file : String) (to_module : String) (import_type : String)
deriving DecidableEq, Repr

/-- One node of the walked Python AST, as far as the extractor looks at it:
`ast.Import` carries its alias names, `ast.ImportFrom` carries its optional
module (None for relative imports such as `from . import x`) and its names
(never inspected by the code); every other node kind is `other`. -/
inductive PyNode where
  | imp (names : List String)
  | impFrom (module : Option String) (names : List String)
  | other
deriving DecidableEq, Repr

/-- Edges contributed by one walked node (loop body, app.py lines 251-265).
`if node.module:` is Python truthiness: `none` and the empty string both
yield nothing. -/
def nodeDeps (fp : String) : PyNode → List Dependency
  | PyNode.imp names => names.map (fun nm => ⟨fp, nm, "import"⟩)
  | PyNode.impFrom module _ =>
    match module with
    | some m => if m = "" then [] else [⟨fp, m, "from_import"⟩]
    | none => []
  | PyNode.other => []

/-- The structured-parse (primary) strategy: walk all nodes, collect edges. -/
def primaryWalk (fp : String) (nodes : List PyNode) : List Dependency :=
  flatMapL (nodeDeps fp) nodes

/-- Python `\s` on the characters that can occur in a line (the line has
already been split on newlines, and the source text is decoded UTF-8; the
ASCII whitespace class is what the patterns exercise). -/
def isPySpace (c : Char) : Bool :=
  c == ' ' || c == '\t' || c == '\n' || c == '\r' || c == '\x0b' || c == '\x0c'

/-- The keyword `import` as a character list. -/
def kwImport : List Char := ['i', 'm', 'p', 'o', 'r', 't']

/-- The keyword `from` as a character list. -/
def kwFrom : List Char := ['f', 'r', 'o', 'm']

/-- One maximal run of `[^\s#]` characters. -/
def takeTok (cs : List Char) : List Char :=
  cs.takeWhile (fun c => (!(isPySpace c)) && (!(c == '#')))

/-- `re.match(r'^\s*import\s+([^\s#]+)', line)`: optional leading whitespace,
the literal `import`, at least one whitespace, then the captured token. -/
def matchImportPat (line : List Char) : Option (List Char) :=
  let r1 := line.dropWhile isPySpace
  if listStarts kwImport r1 then
    match r1.drop 6 with
    | c :: rest2 =>
      if isPySpace c then
        let tok := takeTok (rest2.dropWhile isPySpace)
        if tok.isEmpty then none else some tok
      else none
    | [] => none
  else none

/-- `re.match(r'^\s*from\s+([^\s#]+)\s+import', line)`.  The greedy pieces
need no backtracking: the captured class excludes whitespace and `#`, so the
maximal token followed by mandatory whitespace and the literal `import` is
exactly what the regex engine finds. -/
def matchFromPat (line : List Char) : Option (List Char) :=
  let r1 := line.dropWhile isPySpace
  if listStarts kwFrom r1 then
    match r1.drop 4 with
    | c :: rest2 =>
      if isPySpace c then
        let afterWs := rest2.dropWhile isPySpace
        let tok := takeTok afterWs
        if tok.isEmpty then none
        else
          match afterWs.drop tok.length with
          | d :: rest4 =>
            if isPySpace d then
              if listStarts kwImport (rest4.dropWhile isPySpace) then some tok
              else none
            else none
          | [] => none
      else none
    | [] => none
  else none

/-- Fallback handling of one line (app.py lines 273-281): each of the two
patterns that matches appends one edge; note that the source tags **both**
patterns with `import_type='import'`. -/
def fallbackLine (fp : String) (line : List Char) : List Dependency :=
  (match matchImportPat line with
   | some t => [⟨fp, String.mk t, "import"⟩]
   | none => []) ++
  (match matchFromPat line with
   | some t => [⟨fp, String.mk t, "import"⟩]
   | none => [])

/-- `_extract_python_imports(content, file_path)`: try the structured parse;
on parser failure (`astP content = none`, i.e. `ast.parse` raised) fall back
to the line scan over `content.split('\n')`.  The function is total: the
only fallible step, the parse, sits inside the bare `except:`. -/
def extract_python_imports (astP : String → Option (List PyNode))
    (content fp : String) : List Dependency :=
  match astP content with
  | some nodes => primaryWalk fp nodes
  | none => flatMapL (fallbackLine fp) (splitOnChar '\n' content.toList)

/-! ## File tree construction (`_build_file_tree`, app.py lines 141-164) -/

/-- One entry of a remote directory listing as the code sees it: either a
well-shaped content object with `name`, `type`, `path` and `size` attributes,
or a malformed object (`bad`) on which every attribute access raises. -/
inductive RawEntry where
  | ok (name ty path : String) (size : Nat)
  | bad
deriving DecidableEq, Repr

/-- Entry is well shaped. -/
def rawIsOk : RawEntry → Bool
  | RawEntry.ok _ _ _ _ => true
  | RawEntry.bad => false

/-- The `name` attribute (placeholder value for a malformed entry). -/
def rawName : RawEntry → String
  | RawEntry.ok n _ _ _ => n
  | RawEntry.bad => ""

/-- The `type` attribute (placeholder value for a malformed entry). -/
def rawType : RawEntry → String
  | RawEntry.ok _ ty _ _ => ty
  | RawEntry.bad => ""

/-- The `path` attribute (placeholder value for a malformed entry). -/
def rawPath : RawEntry → String
  | RawEntry.ok _ _ p _ => p
  | RawEntry.bad => ""

/-- The `size` attribute (placeholder value for a malformed entry). -/
def rawSize : RawEntry → Nat
  | RawEntry.ok _ _ _ s => s
  | RawEntry.bad => 0

mutual
/-- A node of the built tree: the Python dicts
`{'type':'file','path':…,'size':…,'language':…}` and
`{'type':'dir','path':…,'children':…}`. -/
inductive FNode where
  | file (path : String) (size : Nat) (language : String)
  | dir (path : String) (children : Children)
deriving Repr

/-- A children mapping: the Python `tree` dict in insertion order, keyed by
entry name. -/
inductive Children where
  | nil
  | cons (name : String) (node : FNode) (rest : Children)
deriving Repr
end

mutual
/-- Decidable equality on nodes (the derive handler does not support the
mutual inductive pair, so the decision procedure is spelled out). -/
def fnodeDecEq : (a b : FNode) → Decidable (a = b)
  | FNode.file p s l, FNode.file p' s' l' =>
    if h : p = p' ∧ s = s' ∧ l = l' then
      isTrue (by rw [h.1, h.2.1, h.2.2])
    else
      isFalse (by intro he; injection he with h1 h2 h3; exact h ⟨h1, h2, h3⟩)
  | FNode.dir p c, FNode.dir p' c' =>
    if hp : p = p' then
      match childDecEq c c' with
      | isTrue hc => isTrue (by rw [hp, hc])
      | isFalse hc => isFalse (by intro he; injection he with _ h2; exact hc h2)
    else isFalse (by intro he; injection he with h1 _; exact hp h1)
  | FNode.file _ _ _, FNode.dir _ _ => isFalse (fun he => FNode.noConfusion he)
  | FNode.dir _ _, FNode.file _ _ _ => isFalse (fun he => FNode.noConfusion he)

/-- Decidable equality on children mappings. -/
def childDecEq : (a b : Children) → Decidable (a = b)
  | Children.nil, Children.nil => isTrue rfl
  | Children.cons n x r, Children.cons n' x' r' =>
    if hn : n = n' then
      match fnodeDecEq x x' with
      | isTrue hx =>
        match childDecEq r r' with
        | isTrue hr => isTrue (by rw [hn, hx, hr])
        | isFalse hr => isFalse (by intro he; injection he with _ _ h3; exact hr h3)
      | isFalse hx => isFalse (by intro he; injection he with _ h2 _; exact hx h2)
    else isFalse (by intro he; injection he with h1 _ _; exact hn h1)
  | Children.nil, Children.cons _ _ _ => isFalse (fun he => Children.noConfusion he)
  | Children.cons _ _ _, Children.nil => isFalse (fun he => Children.noConfusion he)
end

instance : DecidableEq FNode := fnodeDecEq

instance : DecidableEq Children := childDecEq

deriving instance DecidableEq for Except

/-- Concatenation of children mappings. -/
def childAppend : Children → Children → Children
  | Children.nil, d => d
  | Children.cons n x r, d => Children.cons n x (childAppend r d)

/-- The keys of a children mapping, in order. -/
def childKeys : Children → List String
  | Children.nil => []
  | Children.cons n _ r => n :: childKeys r

/-- Does the mapping contain this name bound to this node? -/
def hasPair (c : Children) (nm : String) (v : FNode) : Bool :=
  match c with
  | Children.nil => false
  | Children.cons n x r => ((n == nm) && (x == v)) || hasPair r nm v

/-- Python dict assignment `tree[name] = node`: overwrite in place if the key
exists, otherwise append (insertion order preserved). -/
def dictInsert (d : Children) (k : String) (v : FNode) : Children :=
  match d with
  | Children.nil => Children.cons k v Children.nil
  | Children.cons k' v' t =>
    if k' = k then Children.cons k v t else Children.cons k' v' (dictInsert t k v)

/-- One level of `_build_file_tree`: iterate over the listing entries,
building the `tree` dict.  `child p` is the already-closed computation of a
subdirectory's children mapping (fetch plus recursive build, with the bare
`except:` collapsed into it).  A malformed entry raises at the
`content.type` access, which sits outside any handler in this function, so
the whole level aborts with an exception (`Except.error ()`). -/
def buildLevel (child : String → Children) :
    List RawEntry → Children → Except Unit Children
  | [], acc => Except.ok acc
  | RawEntry.bad :: _, _ => Except.error ()
  | RawEntry.ok n ty p s :: rest, acc =>
    let node :=
      if ty = "dir" then FNode.dir p (child p)
      else FNode.file p s (detect_language n)
    buildLevel child rest (dictInsert acc n node)

/-- The children mapping of a directory at path `p` as computed inside the
`try:` of app.py lines 147-153: fetch the sub-listing and recursively build
it; *any* exception — a failed fetch or an exception propagating out of the
recursive build — is caught by the bare `except:` and downgraded to an empty
children mapping.  The fuel argument bounds the recursion depth of the
model; exhausted fuel behaves like a failed fetch. -/
def childFn (get : String → Except Unit (List RawEntry)) : Nat → String → Children
  | 0, _ => Children.nil
  | Nat.succ f, p =>
    match get p with
    | Except.ok sub =>
      match buildLevel (fun q => childFn get f q) sub Children.nil with
      | Except.ok t => t
      | Except.error _ => Children.nil
    | Except.error _ => Children.nil

/-- `_build_file_tree(repo, contents)`: build the children mapping for the
given listing, recursing through `get` for subdirectories. -/
def build_file_tree (get : String → Except Unit (List RawEntry)) (fuel : Nat)
    (contents : List RawEntry) (acc : Children) : Except Unit Children :=
  buildLevel (fun q => childFn get fuel q) contents acc

/-- `_analyze_file_structure` (app.py lines 133-139): fetch the root listing
and build the tree; *any* exception — including one raised by a malformed
entry in the root listing — is caught, a warning is printed, and
`self.file_structure` keeps its initial empty value; the run continues. -/
def analyze_file_structure (get : String → Except Unit (List RawEntry)) (fuel : Nat) :
    Children :=
  match get "" with
  | Except.error _ => Children.nil
  | Except.ok contents =>
    match build_file_tree get fuel contents Children.nil with
    | Except.ok t => t
    | Except.error _ => Children.nil

/-- The node that `_build_file_tree` stores for one well-shaped entry. -/
def nodeOf (get : String → Except Unit (List RawEntry)) (fuel : Nat) : RawEntry → FNode
  | RawEntry.bad => FNode.file "" 0 ""
  | RawEntry.ok n ty p s =>
    if ty = "dir" then FNode.dir p (childFn get fuel p)
    else FNode.file p s (detect_language n)

/-- The children mapping produced for a listing whose names are distinct. -/
def nodesOf (get : String → Except Unit (List RawEntry)) (fuel : Nat) :
    List RawEntry → Children
  | [] => Children.nil
  | r :: t => Children.cons (rawName r) (nodeOf get fuel r) (nodesOf get fuel t)

/-! ## Derived tree operations -/

mutual
/-- `_count_files` (app.py lines 700-708): recursive count of file nodes
(every `dir` node built by the code carries a `children` key). -/
def count_files : Children → Nat
  | Children.nil => 0
  | Children.cons _ n rest => countNode n + count_files rest

/-- Contribution of one node to `_count_files`. -/
def countNode : FNode → Nat
  | FNode.file _ _ _ => 1
  | FNode.dir _ ch => count_files ch
end

mutual
/-- `files_with_extension(tree, ext)` as the specification words it, except
with the case-sensitive suffix test actually performed by the source
(`content.name.endswith(extension)`): depth-first pre-order paths of file
nodes whose name ends in `ext`. -/
def specFilesCS (ext : String) : Children → List String
  | Children.nil => []
  | Children.cons nm node rest => specOneCS ext nm node ++ specFilesCS ext rest

/-- Contribution of one named node to `specFilesCS`. -/
def specOneCS (ext nm : String) : FNode → List String
  | FNode.file p _ _ => if strEndsWith nm ext then [p] else []
  | FNode.dir _ ch => specFilesCS ext ch
end

mutual
/-- Modelled from the spec: `files_with_extension(tree, ext)` exactly as the
specification words it — paths of file nodes whose name ends in `ext`
matched case-insensitively, depth-first pre-order.  (The repository's code
has no case-insensitive variant; this definition exists to be compared with
the behaviour of `_get_files_by_extension`.) -/
def specFilesCI (ext : String) : Children → List String
  | Children.nil => []
  | Children.cons nm node rest => specOneCI ext nm node ++ specFilesCI ext rest

/-- Contribution of one named node to `specFilesCI`. -/
def specOneCI (ext nm : String) : FNode → List String
  | FNode.file p _ _ =>
    if strEndsWith (strLower nm) (strLower ext) then [p] else []
  | FNode.dir _ ch => specFilesCI ext ch
end

/-- One level of the `search_contents` closure of `_get_files_by_extension`
(app.py lines 225-234).  Returns the paths appended by this frame together
with a flag telling whether the frame finished without raising: a malformed
entry raises at `content.type`, aborting the rest of the frame (the paths
already appended to the shared `files` list survive, the raise is reported
to the caller).  `childSearch p` is the closed dir-branch computation: its
`try:` catches both a failed fetch and an exception from the recursive
search, keeping whatever was appended before the raise. -/
def searchLevel (ext : String) (childSearch : String → List String) :
    List RawEntry → List String × Bool
  | [] => ([], true)
  | RawEntry.bad :: _ => ([], false)
  | RawEntry.ok n ty p _ :: rest =>
    let c :=
      if ty = "file" then (if strEndsWith n ext then [p] else [])
      else if ty = "dir" then childSearch p
      else []
    let pr := searchLevel ext childSearch rest
    (c ++ pr.1, pr.2)

/-- Dir branch of `search_contents`: fetch and recursively search; the
enclosing `try: … except: continue` keeps partial appends.  Exhausted fuel
behaves like a failed fetch. -/
def searchChild (get : String → Except Unit (List RawEntry)) (ext : String) :
    Nat → String → List String
  | 0, _ => []
  | Nat.succ f, p =>
    match get p with
    | Except.ok sub => (searchLevel ext (fun q => searchChild get ext f q) sub).1
    | Except.error _ => []

/-- `_get_files_by_extension(repo, extension)` (app.py lines 221-242): walk
the repository from the root listing; the outer `try: … except: pass`
returns whatever paths were collected when anything raises. -/
def get_files_by_extension (get : String → Except Unit (List RawEntry))
    (ext : String) (fuel : Nat) : List String :=
  match get "" with
  | Except.error _ => []
  | Except.ok entries =>
    (searchLevel ext (fun q => searchChild get ext fuel q) entries).1

/-! ## Well-formed listings -/

/-- One listing level is well shaped: every entry well formed with type
`"file"` or `"dir"`, and entry names pairwise distinct. -/
def levelOK (entries : List RawEntry) : Bool :=
  entries.all (fun r =>
    match r with
    | RawEntry.ok _ ty _ _ => (ty == "file") || (ty == "dir")
    | RawEntry.bad => false) &&
  nodupBy (entries.map rawName)

/-- Every listing reachable from `entries` through `get` within `fuel` steps
is well shaped. -/
def listingsOK (get : String → Except Unit (List RawEntry)) : Nat → List RawEntry → Bool
  | 0, entries => levelOK entries
  | Nat.succ f, entries =>
    levelOK entries &&
    entries.all (fun r =>
      match r with
      | RawEntry.bad => true
      | RawEntry.ok _ ty p _ =>
        if ty = "dir" then
          match get p with
          | Except.ok sub => listingsOK get f sub
          | Except.error _ => true
        else true)

/-! ## Dependency walk (`_analyze_dependencies`, app.py lines 198-219) -/

/-- The content object returned by `repo.get_contents(file_path)` for a file:
its reported `size`, and the outcome of base64-decoding plus UTF-8-decoding
its `content` payload (`Except.error ()` when that decoding would raise). -/
structure FileBlob where
  size : Nat
  text : Except Unit String

/-- Body of the per-file loop of `_analyze_dependencies`: fetch the content
object (a failure is caught: warning, continue), skip the file entirely when
`size > 1000000` without touching its text, otherwise decode (a failure is
caught likewise) and extract. -/
def processFile (getBlob : String → Except Unit FileBlob)
    (astP : String → Option (List PyNode)) (fp : String) : List Dependency :=
  match getBlob fp with
  | Except.error _ => []
  | Except.ok b =>
    if b.size > 1000000 then []
    else
      match b.text with
      | Except.error _ => []
      | Except.ok content => extract_python_imports astP content fp

/-- `_analyze_dependencies` after the `.py` file list has been obtained:
accumulate the edges of every file in order. -/
def analyze_dependencies (getBlob : String → Except Unit FileBlob)
    (astP : String → Option (List PyNode)) (files : List String) : List Dependency :=
  flatMapL (processFile getBlob astP) files

/-- The children mapping that a directory-free listing turns into: exactly
one file node per entry, in listing order. -/
def fileNodesOf : List RawEntry → Children
  | [] => Children.nil
  | r :: t =>
    Children.cons (rawName r)
      (FNode.file (rawPath r) (rawSize r) (detect_language (rawName r)))
      (fileNodesOf t)

/-! ## Helper lemmas: lists and strings -/

theorem mem_flatMapL {α β : Type} {f : α → List β} {d : β} :
    ∀ {l : List α}, d ∈ flatMapL f l ↔ ∃ x, x ∈ l ∧ d ∈ f x := by
  intro l
  induction l with
  | nil => simp [flatMapL]
  | cons a t ih => simp [flatMapL, ih]

theorem strMem_iff {l : List String} {s : String} : strMem l s = true ↔ s ∈ l := by
  induction l with
  | nil => simp [strMem]
  | cons x t ih =>
    simp [strMem, ih]
    constructor
    · rintro (h | h)
      · exact Or.inl h.symm
      · exact Or.inr h
    · rintro (h | h)
      · exact Or.inl h.symm
      · exact Or.inr h

theorem flatMapL_append {α β : Type} (f : α → List β) (l1 l2 : List α) :
    flatMapL f (l1 ++ l2) = flatMapL f l1 ++ flatMapL f l2 := by
  induction l1 with
  | nil => simp [flatMapL]
  | cons a t ih => simp [flatMapL, ih]

/-! ## Helper lemmas: the fallback patterns -/

theorem matchImportPat_starts {line t : List Char} (h : matchImportPat line = some t) :
    listStarts kwImport (line.dropWhile isPySpace) = true := by
  cases hs : listStarts kwImport (line.dropWhile isPySpace) with
  | true => rfl
  | false => simp [matchImportPat, hs] at h

theorem matchFromPat_starts {line t : List Char} (h : matchFromPat line = some t) :
    listStarts kwFrom (line.dropWhile isPySpace) = true := by
  cases hs : listStarts kwFrom (line.dropWhile isPySpace) with
  | true => rfl
  | false => simp [matchFromPat, hs] at h

/-- The two fallback patterns cannot both match: after the leading
whitespace, one expects `i` and the other `f`. -/
theorem pats_excl {line t : List Char} (h : matchImportPat line = some t) :
    matchFromPat line = none := by
  have hi := matchImportPat_starts h
  cases hf : matchFromPat line with
  | none => rfl
  | some t' =>
    exfalso
    have hfr := matchFromPat_starts hf
    cases hr : line.dropWhile isPySpace with
    | nil => rw [hr] at hi; simp [kwImport, listStarts] at hi
    | cons b bs =>
      rw [hr] at hi hfr
      simp [kwImport, listStarts] at hi
      simp [kwFrom, listStarts] at hfr
      rw [← hi.1] at hfr
      exact absurd hfr.1 (by decide)

/-- Symmetric direction of the exclusivity. -/
theorem pats_excl' {line t : List Char} (h : matchFromPat line = some t) :
    matchImportPat line = none := by
  cases hi : matchImportPat line with
  | none => rfl
  | some t' => rw [pats_excl hi] at h; cases h

theorem fallbackLine_len (fp : String) (line : List Char) :
    (fallbackLine fp line).length ≤ 1 := by
  cases hi : matchImportPat line with
  | some t => simp [fallbackLine, hi, pats_excl hi]
  | none => cases hf : matchFromPat line <;> simp [fallbackLine, hi, hf]

theorem fallbackLine_mem {fp : String} {line : List Char} {d : Dependency}
    (h : d ∈ fallbackLine fp line) :
    d.import_type = "import" ∧ d.from_file = fp := by
  simp [fallbackLine] at h
  rcases h with h | h
  · cases hi : matchImportPat line <;> rw [hi] at h <;> simp at h
    subst h; exact ⟨rfl, rfl⟩
  · cases hf : matchFromPat line <;> rw [hf] at h <;> simp at h
    subst h; exact ⟨rfl, rfl⟩

theorem nodeDeps_from {fp : String} {n : PyNode} {d : Dependency}
    (h : d ∈ nodeDeps fp n) : d.from_file = fp := by
  cases n with
  | imp names =>
    simp [nodeDeps] at h
    obtain ⟨nm, _, he⟩ := h
    rw [← he]
  | impFrom m names =>
    cases m with
    | none => simp [nodeDeps] at h
    | some mo =>
      by_cases hm : mo = "" <;> simp [nodeDeps, hm] at h
      rw [h]
  | other => simp [nodeDeps] at h

/-- Every edge produced by the extractor carries the file path it was
called with. -/
theorem extract_from_file {astP : String → Option (List PyNode)}
    {c fp : String} {d : Dependency}
    (h : d ∈ extract_python_imports astP c fp) : d.from_file = fp := by
  unfold extract_python_imports at h
  cases hp : astP c with
  | some nodes =>
    rw [hp] at h
    unfold primaryWalk at h
    rw [mem_flatMapL] at h
    obtain ⟨x, _, hx⟩ := h
    exact nodeDeps_from hx
  | none =>
    rw [hp] at h
    rw [mem_flatMapL] at h
    obtain ⟨x, _, hx⟩ := h
    exact (fallbackLine_mem hx).2

/-! ## Claim C1 — the fallback scan -/

/-- C1 counterexample: on text whose structured parse fails (here the
second line is a syntax error, so `ast.parse` raises), the line
`from collections import defaultdict` matches the from-pattern, but the
fallback appends the edge with `import_type='import'` (spec kind `Direct`),
not `'from_import'` (spec kind `FromImport`) as the claim requires: the
source passes `import_type='import'` for **both** fallback patterns. -/
theorem C1_cex :
    extract_python_imports (fun _ => none)
        "from collections import defaultdict\nbroken (" "f.py"
      = [⟨"f.py", "collections", "import"⟩]
    ∧ ("import" : String) ≠ "from_import" := by
  constructor
  · decide
  · decide

/-- C1 (amended): in the fallback strategy, for every input text on which
the structured parse fails, the extractor scans each line of
`content.split('\n')` independently; a line matching the import-pattern
yields one edge of kind `Direct` (`"import"`), a line matching the
from-pattern **also** yields one edge of kind `Direct` with the captured
module, at most one edge is produced per line (the two patterns are
mutually exclusive), and a line matching neither pattern yields nothing. -/
theorem C1_fallback_scan (astP : String → Option (List PyNode)) (content fp : String)
    (h : astP content = none) :
    extract_python_imports astP content fp
        = flatMapL (fallbackLine fp) (splitOnChar '\n' content.toList)
    ∧ (∀ line t, matchImportPat line = some t →
        fallbackLine fp line = [⟨fp, String.mk t, "import"⟩])
    ∧ (∀ line t, matchFromPat line = some t →
        fallbackLine fp line = [⟨fp, String.mk t, "import"⟩])
    ∧ (∀ line, matchImportPat line = none → matchFromPat line = none →
        fallbackLine fp line = [])
    ∧ (∀ line, (fallbackLine fp line).length ≤ 1) := by
  refine ⟨?_, ?_, ?_, ?_, fallbackLine_len fp⟩
  · simp [extract_python_imports, h]
  · intro line t hi
    simp [fallbackLine, hi, pats_excl hi]
  · intro line t hf
    simp [fallbackLine, hf, pats_excl' hf]
  · intro line hi hf
    simp [fallbackLine, hi, hf]

/-- C1 witness: the amended behaviour on concrete text with a syntactically
broken second line. -/
theorem C1_fallback_scan_wit :
    extract_python_imports (fun _ => none) "import sys\nbroken (" "f.py"
      = [⟨"f.py", "sys", "import"⟩]
    ∧ fallbackLine "f.py" "from collections import x".toList
      = [⟨"f.py", "collections", "import"⟩] := by
  have h := C1_fallback_scan (fun _ => none) "import sys\nbroken (" "f.py" rfl
  constructor
  · rw [h.1]; decide
  · exact h.2.2.1 "from collections import x".toList "collections".toList (by decide)

/-! ## Claim C4 — the primary strategy -/

/-- C4: in the structured-parse strategy, when the parse succeeds the
extractor walks the node sequence; each `ast.Import` node yields one
`Direct` edge per imported module name, each `ast.ImportFrom` with a named
(non-empty) module yields exactly one `FromImport` edge for that module
regardless of how many names it imports, and a from-import whose module is
relative/unspecified (`module = none`) yields no edge. -/
theorem C4_primary_strategy (astP : String → Option (List PyNode))
    (content fp m : String) (names : List String) (nodes rest : List PyNode) :
    (astP content = some nodes →
      extract_python_imports astP content fp = primaryWalk fp nodes)
    ∧ primaryWalk fp (PyNode.imp names :: rest)
        = names.map (fun nm => ⟨fp, nm, "import"⟩) ++ primaryWalk fp rest
    ∧ (m ≠ "" → primaryWalk fp (PyNode.impFrom (some m) names :: rest)
        = ⟨fp, m, "from_import"⟩ :: primaryWalk fp rest)
    ∧ primaryWalk fp (PyNode.impFrom none names :: rest) = primaryWalk fp rest
    ∧ primaryWalk fp (PyNode.other :: rest) = primaryWalk fp rest := by
  refine ⟨?_, ?_, ?_, ?_, ?_⟩
  · intro h; simp [extract_python_imports, h]
  · simp [primaryWalk, flatMapL, nodeDeps]
  · intro hm; simp [primaryWalk, flatMapL, nodeDeps, hm]
  · simp [primaryWalk, flatMapL, nodeDeps]
  · simp [primaryWalk, flatMapL, nodeDeps]

/-- C4 witness: the specification's own example.  The parse oracle returns
the `ast.walk` sequence of `import os` / `from collections import
defaultdict`: the `Module` node, the two import statements, then the two
`alias` nodes, with every non-import node appearing as `other`. -/
theorem C4_primary_strategy_wit :
    extract_python_imports
        (fun _ => some [PyNode.other, PyNode.imp ["os"],
          PyNode.impFrom (some "collections") ["defaultdict"],
          PyNode.other, PyNode.other])
        "import os\nfrom collections import defaultdict" "m.py"
      = [⟨"m.py", "os", "import"⟩, ⟨"m.py", "collections", "from_import"⟩]
    ∧ primaryWalk "m.py" [PyNode.impFrom (some "collections") ["defaultdict"]]
      = [⟨"m.py", "collections", "from_import"⟩] := by
  have h := C4_primary_strategy
    (fun _ => some [PyNode.other, PyNode.imp ["os"],
      PyNode.impFrom (some "collections") ["defaultdict"],
      PyNode.other, PyNode.other])
    "import os\nfrom collections import defaultdict" "m.py" "collections" ["os"]
    [PyNode.other, PyNode.imp ["os"],
      PyNode.impFrom (some "collections") ["defaultdict"],
      PyNode.other, PyNode.other] []
  constructor
  · rw [h.1 rfl]; decide
  · exact (h.2.2.1 (by decide)).trans (by decide)

/-! ## Claim C5 — extraction totality and empty input -/

/-- C5: `extract` never raises — the embedding is a total function, because
the only fallible step (the structured parse) sits inside the source's bare
`except:`, whose handler (the fallback scan) has no failure point of its
own — and on empty text it returns the empty edge sequence under both
strategies: `ast.parse("")` succeeds with a bare `Module` node (no import
nodes), and the fallback scan of `""` sees one empty line matching neither
pattern. -/
theorem C5_extract_empty (astP1 astP2 : String → Option (List PyNode)) (fp : String)
    (h1 : astP1 "" = some [PyNode.other]) (h2 : astP2 "" = none) :
    extract_python_imports astP1 "" fp = []
    ∧ extract_python_imports astP2 "" fp = [] := by
  constructor
  · simp [extract_python_imports, h1, primaryWalk, flatMapL, nodeDeps]
  · have he : ("" : String).toList = [] := rfl
    have hsp : splitOnChar '\n' [] = [[]] := rfl
    have hi : matchImportPat [] = none := rfl
    have hf : matchFromPat [] = none := rfl
    simp [extract_python_imports, h2, he, hsp, flatMapL, fallbackLine, hi, hf]

/-- C5 witness: concrete parse oracles for the empty text. -/
theorem C5_extract_empty_wit :
    extract_python_imports (fun _ => some [PyNode.other]) "" "a.py" = []
    ∧ extract_python_imports (fun _ => none) "" "a.py" = [] :=
  C5_extract_empty (fun _ => some [PyNode.other]) (fun _ => none) "a.py" rfl rfl

/-! ## Helper lemmas: children mappings -/

theorem childAppend_nil : ∀ c : Children, childAppend c Children.nil = c
  | Children.nil => rfl
  | Children.cons _ _ r => by simp [childAppend, childAppend_nil r]

theorem childAppend_single : ∀ (acc : Children) (n : String) (x : FNode) (d : Children),
    childAppend (childAppend acc (Children.cons n x Children.nil)) d
      = childAppend acc (Children.cons n x d)
  | Children.nil, _, _, _ => rfl
  | Children.cons n' x' r, n, x, d => by
    simp [childAppend, childAppend_single r n x d]

theorem childKeys_append : ∀ a b : Children,
    childKeys (childAppend a b) = childKeys a ++ childKeys b
  | Children.nil, _ => rfl
  | Children.cons _ _ r, b => by simp [childAppend, childKeys, childKeys_append r b]

theorem strMem_append (l1 l2 : List String) (s : String) :
    strMem (l1 ++ l2) s = (strMem l1 s || strMem l2 s) := by
  induction l1 with
  | nil => simp [strMem]
  | cons x t ih => simp [strMem, ih, Bool.or_assoc]

theorem dictInsert_append : ∀ {d : Children} {k : String} (v : FNode),
    strMem (childKeys d) k = false →
    dictInsert d k v = childAppend d (Children.cons k v Children.nil)
  | Children.nil, _, _, _ => rfl
  | Children.cons k' v' t, k, v, h => by
    simp [childKeys, strMem] at h
    simp [dictInsert, childAppend, h.1, dictInsert_append v h.2]

theorem hasPair_nodesOf {get : String → Except Unit (List RawEntry)} {fuel : Nat}
    {entries : List RawEntry} {r : RawEntry} (h : r ∈ entries) :
    hasPair (nodesOf get fuel entries) (rawName r) (nodeOf get fuel r) = true := by
  induction entries with
  | nil => cases h
  | cons a t ih =>
    rcases List.mem_cons.mp h with he | ht
    · subst he
      simp [nodesOf, hasPair]
    · simp [nodesOf, hasPair, ih ht]

/-- A malformed entry in the listing currently being processed raises
before anything can catch it: the whole level aborts. -/
theorem buildLevel_bad {child : String → Children} {entries : List RawEntry}
    (h : RawEntry.bad ∈ entries) :
    ∀ acc, buildLevel child entries acc = Except.error () := by
  induction entries with
  | nil => cases h
  | cons a t ih =>
    intro acc
    cases a with
    | bad => rfl
    | ok n ty p s =>
      rcases List.mem_cons.mp h with he | ht
      · cases he
      · exact ih ht _

/-- Characterization of one build level on a well-shaped listing with
distinct names that also avoid the keys already in the accumulator: the
level succeeds and appends exactly one node per entry, in listing order. -/
theorem buildLevel_ok (get : String → Except Unit (List RawEntry)) (fuel : Nat) :
    ∀ (entries : List RawEntry) (acc : Children),
      entries.all rawIsOk = true →
      nodupBy (entries.map rawName) = true →
      (∀ r ∈ entries, strMem (childKeys acc) (rawName r) = false) →
      buildLevel (fun q => childFn get fuel q) entries acc
        = Except.ok (childAppend acc (nodesOf get fuel entries)) := by
  intro entries
  induction entries with
  | nil =>
    intro acc _ _ _
    simp [buildLevel, nodesOf, childAppend_nil]
  | cons r rest ih =>
    intro acc h1 h2 h3
    cases r with
    | bad => simp [List.all_cons, rawIsOk] at h1
    | ok n ty p s =>
      have hstep : buildLevel (fun q => childFn get fuel q) (RawEntry.ok n ty p s :: rest) acc
          = buildLevel (fun q => childFn get fuel q) rest
              (dictInsert acc n (nodeOf get fuel (RawEntry.ok n ty p s))) := rfl
      have hknotin : strMem (childKeys acc) n = false :=
        h3 (RawEntry.ok n ty p s) (List.mem_cons_self _ _)
      have hnodup : strMem (rest.map rawName) n = false ∧ nodupBy (rest.map rawName) = true := by
        simp [List.map_cons, nodupBy, rawName] at h2
        exact ⟨by simpa using h2.1, h2.2⟩
      have h3' : ∀ r' ∈ rest,
          strMem (childKeys (childAppend acc
            (Children.cons n (nodeOf get fuel (RawEntry.ok n ty p s)) Children.nil)))
            (rawName r') = false := by
        intro r' hr'
        rw [childKeys_append, strMem_append]
        have ha : strMem (childKeys acc) (rawName r') = false :=
          h3 r' (List.mem_cons_of_mem _ hr')
        have hb : (n == rawName r') = false := by
          rw [beq_eq_false_iff_ne]
          intro hcon
          have : strMem (rest.map rawName) n = true :=
            strMem_iff.mpr (hcon ▸ List.mem_map_of_mem rawName hr')
          rw [this] at hnodup
          exact Bool.noConfusion hnodup.1
        simp [childKeys, strMem, ha, hb]
      have h1' : rest.all rawIsOk = true := by
        simp only [List.all_cons, Bool.and_eq_true] at h1
        exact h1.2
      rw [hstep, dictInsert_append _ hknotin, ih _ h1' hnodup.2 h3',
        childAppend_single]
      rfl

/-- Well-shaped listing with distinct names: the build of one level
succeeds and produces exactly one node per entry. -/
theorem build_ok {get : String → Except Unit (List RawEntry)} {fuel : Nat}
    {entries : List RawEntry}
    (h1 : entries.all rawIsOk = true)
    (h2 : nodupBy (entries.map rawName) = true) :
    build_file_tree get fuel entries Children.nil
      = Except.ok (nodesOf get fuel entries) := by
  have h := buildLevel_ok get fuel entries Children.nil h1 h2
    (fun r _ => rfl)
  rw [build_file_tree, h]
  rfl

theorem levelOK_parts {entries : List RawEntry} (h : levelOK entries = true) :
    entries.all rawIsOk = true ∧ nodupBy (entries.map rawName) = true := by
  rw [levelOK, Bool.and_eq_true] at h
  refine ⟨?_, h.2⟩
  rw [List.all_eq_true] at h ⊢
  intro r hr
  have := h.1 r hr
  cases r with
  | ok n ty p s => rfl
  | bad => simp at this

theorem levelOK_types {entries : List RawEntry} (h : levelOK entries = true) :
    ∀ r ∈ entries, ∀ n ty p s, r = RawEntry.ok n ty p s →
      ty = "file" ∨ ty = "dir" := by
  rw [levelOK, Bool.and_eq_true] at h
  intro r hr n ty p s he
  have := (List.all_eq_true.mp h.1) r hr
  subst he
  simp only [Bool.or_eq_true, beq_iff_eq] at this
  exact this

theorem levelOK_cons {r : RawEntry} {rest : List RawEntry}
    (h : levelOK (r :: rest) = true) : levelOK rest = true := by
  rw [levelOK, Bool.and_eq_true] at h ⊢
  constructor
  · rw [List.all_cons, Bool.and_eq_true] at h
    exact h.1.2
  · have := h.2
    simp only [List.map_cons, nodupBy, Bool.and_eq_true] at this
    exact this.2

theorem listingsOK_level {get : String → Except Unit (List RawEntry)}
    {fuel : Nat} {entries : List RawEntry}
    (h : listingsOK get fuel entries = true) : levelOK entries = true := by
  cases fuel with
  | zero => exact h
  | succ f => rw [listingsOK, Bool.and_eq_true] at h; exact h.1

theorem listingsOK_cons {get : String → Except Unit (List RawEntry)}
    {fuel : Nat} {r : RawEntry} {rest : List RawEntry}
    (h : listingsOK get fuel (r :: rest) = true) :
    listingsOK get fuel rest = true := by
  cases fuel with
  | zero => exact levelOK_cons h
  | succ f =>
    rw [listingsOK, Bool.and_eq_true] at h ⊢
    refine ⟨levelOK_cons h.1, ?_⟩
    have := h.2
    rw [List.all_cons, Bool.and_eq_true] at this
    exact this.2

theorem listingsOK_dirSub {get : String → Except Unit (List RawEntry)}
    {f : Nat} {entries sub : List RawEntry} {n ty p : String} {s : Nat}
    (h : listingsOK get (Nat.succ f) entries = true)
    (hmem : RawEntry.ok n ty p s ∈ entries)
    (hty : ty = "dir") (hget : get p = Except.ok sub) :
    listingsOK get f sub = true := by
  rw [listingsOK, Bool.and_eq_true] at h
  have := (List.all_eq_true.mp h.2) _ hmem
  rw [hty] at this
  simp only [if_pos rfl, hget] at this
  exact this

/-- The repository walk of `_get_files_by_extension` computes exactly the
case-sensitive pre-order file filter of the tree that `_build_file_tree`
builds over the same listings, for every well-shaped listing family. -/
theorem search_spec (get : String → Except Unit (List RawEntry)) (ext : String) :
    ∀ (fuel : Nat) (entries : List RawEntry),
      listingsOK get fuel entries = true →
      (searchLevel ext (fun q => searchChild get ext fuel q) entries).1
        = specFilesCS ext (nodesOf get fuel entries) := by
  intro fuel
  induction fuel with
  | zero =>
    intro entries
    induction entries with
    | nil => intro _; rfl
    | cons r rest ihr =>
      intro h
      have hrest := ihr (listingsOK_cons h)
      cases r with
      | bad =>
        have := (levelOK_parts (listingsOK_level h)).1
        simp [List.all_cons, rawIsOk] at this
      | ok n ty p s =>
        have hty := levelOK_types (listingsOK_level h) _ (List.mem_cons_self _ _)
          n ty p s rfl
        cases hty with
        | inl hfi =>
          subst hfi
          simp [searchLevel, nodesOf, nodeOf, specFilesCS, specOneCS, rawName, hrest]
        | inr hd =>
          subst hd
          have hchild : searchChild get ext 0 p = [] := rfl
          have hnode : childFn get 0 p = Children.nil := rfl
          simp [searchLevel, nodesOf, nodeOf, specFilesCS, specOneCS, rawName,
            hrest, hchild, hnode]
  | succ f ihf =>
    intro entries
    induction entries with
    | nil => intro _; rfl
    | cons r rest ihr =>
      intro h
      have hrest := ihr (listingsOK_cons h)
      cases r with
      | bad =>
        have := (levelOK_parts (listingsOK_level h)).1
        simp [List.all_cons, rawIsOk] at this
      | ok n ty p s =>
        have hty := levelOK_types (listingsOK_level h) _ (List.mem_cons_self _ _)
          n ty p s rfl
        cases hty with
        | inl hfi =>
          subst hfi
          simp [searchLevel, nodesOf, nodeOf, specFilesCS, specOneCS, rawName, hrest]
        | inr hd =>
          subst hd
          cases hget : get p with
          | error e =>
            have hchild : searchChild get ext (Nat.succ f) p = [] := by
              simp [searchChild, hget]
            have hnode : childFn get (Nat.succ f) p = Children.nil := by
              simp [childFn, hget]
            simp [searchLevel, nodesOf, nodeOf, specFilesCS, specOneCS, rawName,
              hrest, hchild, hnode]
          | ok sub =>
            have hsub : listingsOK get f sub = true :=
              listingsOK_dirSub h (List.mem_cons_self _ _) rfl hget
            have hparts := levelOK_parts (listingsOK_level hsub)
            have hbuild : buildLevel (fun q => childFn get f q) sub Children.nil
                = Except.ok (nodesOf get f sub) := build_ok hparts.1 hparts.2
            have hihsub := ihf sub hsub
            have hchild : searchChild get ext (Nat.succ f) p
                = specFilesCS ext (nodesOf get f sub) := by
              rw [searchChild, hget]
              exact hihsub
            have hnode : childFn get (Nat.succ f) p = nodesOf get f sub := by
              rw [childFn, hget]
              show (match buildLevel (fun q => childFn get f q) sub Children.nil with
                    | Except.ok t => t
                    | Except.error _ => Children.nil) = nodesOf get f sub
              rw [hbuild]
            simp [searchLevel, nodesOf, nodeOf, specFilesCS, specOneCS, rawName,
              hrest, hchild, hnode]

theorem nodesOf_files {get : String → Except Unit (List RawEntry)} {fuel : Nat} :
    ∀ {entries : List RawEntry},
      (∀ r ∈ entries, rawIsOk r = true ∧ (rawType r == "dir") = false) →
      nodesOf get fuel entries = fileNodesOf entries := by
  intro entries
  induction entries with
  | nil => intro _; rfl
  | cons r rest ih =>
    intro h
    have hr := h r (List.mem_cons_self _ _)
    have hrest := ih (fun x hx => h x (List.mem_cons_of_mem _ hx))
    cases r with
    | bad => simp [rawIsOk] at hr
    | ok n ty p s =>
      have hty : ty ≠ "dir" := by
        have := hr.2
        rwa [beq_eq_false_iff_ne] at this
      simp [nodesOf, fileNodesOf, nodeOf, rawName, rawPath, rawSize, hty, hrest]

theorem count_fileNodesOf : ∀ entries : List RawEntry,
    count_files (fileNodesOf entries) = entries.length := by
  intro entries
  induction entries with
  | nil => rfl
  | cons r rest ih =>
    simp [fileNodesOf, count_files, countNode, ih]
    omega

/-! ## Claim C2 — local recovery in the tree builder -/

/-- C2 counterexample: the claim quantifies over every listing function; for
the listing `[dir "d", file "d"]` with the listing of `"d"` failing, the
childless directory node recorded for `"d"` is overwritten by the later
file entry of the same name (Python dict assignment), so the returned tree
does not contain the failing directory as a childless node. -/
theorem C2_cex :
    build_file_tree (fun _ => Except.error ()) 2
      [RawEntry.ok "d" "dir" "d" 0, RawEntry.ok "d" "file" "d" 7] Children.nil
      = Except.ok (Children.cons "d" (FNode.file "d" 7 "Unknown") Children.nil)
    ∧ hasPair (Children.cons "d" (FNode.file "d" 7 "Unknown") Children.nil) "d"
        (FNode.dir "d" Children.nil) = false := by
  constructor
  · decide
  · decide

/-- C2 (amended): for every listing function and every listing whose entries
are well shaped with pairwise-distinct names, `build` does not propagate a
recursive-listing failure: it returns a tree with one node per entry in
which every directory entry whose listing failed appears with an empty
children mapping, and every directory entry whose listing succeeded appears
with exactly the recursively built subtree, so every node reachable through
listings that succeeded is in the returned tree. -/
theorem C2_local_recovery (get : String → Except Unit (List RawEntry)) (f : Nat)
    (entries : List RawEntry)
    (h1 : entries.all rawIsOk = true)
    (h2 : nodupBy (entries.map rawName) = true) :
    build_file_tree get (Nat.succ f) entries Children.nil
      = Except.ok (nodesOf get (Nat.succ f) entries)
    ∧ (∀ n ty p s, RawEntry.ok n ty p s ∈ entries → ty = "dir" →
        get p = Except.error () →
        hasPair (nodesOf get (Nat.succ f) entries) n (FNode.dir p Children.nil) = true)
    ∧ (∀ n ty p s sub t, RawEntry.ok n ty p s ∈ entries → ty = "dir" →
        get p = Except.ok sub →
        build_file_tree get f sub Children.nil = Except.ok t →
        hasPair (nodesOf get (Nat.succ f) entries) n (FNode.dir p t) = true) := by
  refine ⟨build_ok h1 h2, ?_, ?_⟩
  · intro n ty p s hmem hty hget
    have hp := @hasPair_nodesOf get (Nat.succ f) entries (RawEntry.ok n ty p s) hmem
    have hn : nodeOf get (Nat.succ f) (RawEntry.ok n ty p s)
        = FNode.dir p Children.nil := by
      subst hty
      simp [nodeOf, childFn, hget]
    rw [hn] at hp
    exact hp
  · intro n ty p s sub t hmem hty hget hbt
    have hp := @hasPair_nodesOf get (Nat.succ f) entries (RawEntry.ok n ty p s) hmem
    have hb' : buildLevel (fun q => childFn get f q) sub Children.nil
        = Except.ok t := hbt
    have hn : nodeOf get (Nat.succ f) (RawEntry.ok n ty p s) = FNode.dir p t := by
      subst hty
      have hcf : childFn get (Nat.succ f) p = t := by
        rw [childFn, hget]
        show (match buildLevel (fun q => childFn get f q) sub Children.nil with
              | Except.ok t => t
              | Except.error _ => Children.nil) = t
        rw [hb']
      simp [nodeOf, hcf]
    rw [hn] at hp
    exact hp

/-- C2 witness: a root listing with one failing directory, one succeeding
directory and one file. -/
theorem C2_local_recovery_wit :
    build_file_tree
        (fun p => if p = "sub" then Except.ok [RawEntry.ok "x.py" "file" "sub/x.py" 3]
                  else Except.error ()) 2
        [RawEntry.ok "sub" "dir" "sub" 0, RawEntry.ok "boom" "dir" "boom" 0,
         RawEntry.ok "a.py" "file" "a.py" 1] Children.nil
      = Except.ok (nodesOf
          (fun p => if p = "sub" then Except.ok [RawEntry.ok "x.py" "file" "sub/x.py" 3]
                    else Except.error ()) 2
          [RawEntry.ok "sub" "dir" "sub" 0, RawEntry.ok "boom" "dir" "boom" 0,
           RawEntry.ok "a.py" "file" "a.py" 1])
    ∧ hasPair (nodesOf
          (fun p => if p = "sub" then Except.ok [RawEntry.ok "x.py" "file" "sub/x.py" 3]
                    else Except.error ()) 2
          [RawEntry.ok "sub" "dir" "sub" 0, RawEntry.ok "boom" "dir" "boom" 0,
           RawEntry.ok "a.py" "file" "a.py" 1])
        "boom" (FNode.dir "boom" Children.nil) = true
    ∧ hasPair (nodesOf
          (fun p => if p = "sub" then Except.ok [RawEntry.ok "x.py" "file" "sub/x.py" 3]
                    else Except.error ()) 2
          [RawEntry.ok "sub" "dir" "sub" 0, RawEntry.ok "boom" "dir" "boom" 0,
           RawEntry.ok "a.py" "file" "a.py" 1])
        "sub" (FNode.dir "sub"
          (Children.cons "x.py" (FNode.file "sub/x.py" 3 "Python") Children.nil)) = true := by
  have h := C2_local_recovery
    (fun p => if p = "sub" then Except.ok [RawEntry.ok "x.py" "file" "sub/x.py" 3]
              else Except.error ()) 1
    [RawEntry.ok "sub" "dir" "sub" 0, RawEntry.ok "boom" "dir" "boom" 0,
     RawEntry.ok "a.py" "file" "a.py" 1] (by decide) (by decide)
  refine ⟨h.1, ?_, ?_⟩
  · exact h.2.1 "boom" "dir" "boom" 0 (by decide) rfl (by decide)
  · exact h.2.2 "sub" "dir" "sub" 0 [RawEntry.ok "x.py" "file" "sub/x.py" 3]
      (Children.cons "x.py" (FNode.file "sub/x.py" 3 "Python") Children.nil)
      (by decide) rfl (by decide) (by decide)

/-! ## Claim C3 — which exceptions are downgraded -/

/-- C3 counterexample: the nested listing of directory `d` contains a
malformed entry; the exception raised by the recursive build is caught by
the same bare `except:` that catches listing failures, and is downgraded to
an empty children mapping — the build succeeds instead of propagating a
fatal error as the claim requires. -/
theorem C3_cex :
    build_file_tree
        (fun p => if p = "d" then Except.ok [RawEntry.bad] else Except.error ()) 2
        [RawEntry.ok "d" "dir" "d" 0] Children.nil
      = Except.ok (Children.cons "d" (FNode.dir "d" Children.nil) Children.nil) := by
  decide

/-- C3 (amended): the `try:` of the tree builder guards the whole
fetch-and-build of a directory entry's subtree, so *any* exception raised
there — a listing failure or a malformed entry in a nested listing — is
downgraded to an empty children mapping; only a malformed entry in the
listing currently being processed raises outside the handler and propagates
out of `build`, and the tree-analysis caller then catches it, leaving the
file structure empty and continuing the run rather than aborting it. -/
theorem C3_error_scope (get : String → Except Unit (List RawEntry))
    (f fuel : Nat) (entries : List RawEntry) (acc : Children)
    (p : String) (sub : List RawEntry) :
    (get p = Except.ok sub →
      build_file_tree get f sub Children.nil = Except.error () →
      childFn get (Nat.succ f) p = Children.nil)
    ∧ (RawEntry.bad ∈ entries →
        build_file_tree get fuel entries acc = Except.error ())
    ∧ (get "" = Except.ok entries → RawEntry.bad ∈ entries →
        analyze_file_structure get fuel = Children.nil) := by
  refine ⟨?_, ?_, ?_⟩
  · intro hget hb
    have hb' : buildLevel (fun q => childFn get f q) sub Children.nil
        = Except.error () := hb
    rw [childFn, hget]
    show (match buildLevel (fun q => childFn get f q) sub Children.nil with
          | Except.ok t => t
          | Except.error _ => Children.nil) = Children.nil
    rw [hb']
  · intro hb
    exact buildLevel_bad hb acc
  · intro hget hb
    have herr : build_file_tree get fuel entries Children.nil = Except.error () :=
      buildLevel_bad hb Children.nil
    simp [analyze_file_structure, hget, herr]

/-- C3 witness: a repository whose root listing ends with a malformed entry
and whose non-root listings consist of a malformed entry. -/
theorem C3_error_scope_wit :
    childFn (fun p => if p = "" then Except.ok [RawEntry.ok "a" "file" "a" 1, RawEntry.bad]
                      else Except.ok [RawEntry.bad]) 2 "q" = Children.nil
    ∧ build_file_tree
        (fun p => if p = "" then Except.ok [RawEntry.ok "a" "file" "a" 1, RawEntry.bad]
                  else Except.ok [RawEntry.bad]) 3
        [RawEntry.ok "a" "file" "a" 1, RawEntry.bad] Children.nil = Except.error ()
    ∧ analyze_file_structure
        (fun p => if p = "" then Except.ok [RawEntry.ok "a" "file" "a" 1, RawEntry.bad]
                  else Except.ok [RawEntry.bad]) 3 = Children.nil := by
  have h := C3_error_scope
    (fun p => if p = "" then Except.ok [RawEntry.ok "a" "file" "a" 1, RawEntry.bad]
              else Except.ok [RawEntry.bad]) 1 3
    [RawEntry.ok "a" "file" "a" 1, RawEntry.bad] Children.nil "q" [RawEntry.bad]
  exact ⟨h.1 rfl (by decide), h.2.1 (by decide), h.2.2 rfl (by decide)⟩

/-! ## Claim C7 — directory-free listings -/

/-- C7 counterexample: the claim quantifies over every listing; a listing
with two file entries of the same name collapses into one dict entry, so
`count_files` is 1 while the listing length is 2. -/
theorem C7_cex :
    build_file_tree (fun _ => Except.error ()) 1
      [RawEntry.ok "a" "file" "a" 0, RawEntry.ok "a" "file" "a" 0] Children.nil
      = Except.ok (Children.cons "a" (FNode.file "a" 0 "Unknown") Children.nil)
    ∧ count_files (Children.cons "a" (FNode.file "a" 0 "Unknown") Children.nil) = 1
    ∧ [RawEntry.ok "a" "file" "a" 0, RawEntry.ok "a" "file" "a" 0].length = 2 := by
  refine ⟨by decide, by decide, by decide⟩

/-- C7 (amended): for every listing with no directory entries whose entries
are well shaped with pairwise-distinct names, `build` returns a tree whose
children mapping has exactly one `File` entry per listing entry (in listing
order, with the entry's path, size and detected language), and
`count_files` of that tree equals the number of entries in the listing. -/
theorem C7_flat_listing (get : String → Except Unit (List RawEntry)) (fuel : Nat)
    (entries : List RawEntry)
    (h1 : entries.all (fun r => rawIsOk r && !(rawType r == "dir")) = true)
    (h2 : nodupBy (entries.map rawName) = true) :
    build_file_tree get fuel entries Children.nil = Except.ok (fileNodesOf entries)
    ∧ count_files (fileNodesOf entries) = entries.length := by
  have hper : ∀ r ∈ entries, rawIsOk r = true ∧ (rawType r == "dir") = false := by
    intro r hr
    have := List.all_eq_true.mp h1 r hr
    rw [Bool.and_eq_true] at this
    refine ⟨this.1, ?_⟩
    have h2' := this.2
    cases hb : (rawType r == "dir") with
    | true => rw [hb] at h2'; simp at h2'
    | false => rfl
  have hIsOk : entries.all rawIsOk = true :=
    List.all_eq_true.mpr (fun r hr => (hper r hr).1)
  refine ⟨?_, count_fileNodesOf entries⟩
  rw [build_ok hIsOk h2, nodesOf_files hper]

/-- C7 witness: a two-file listing. -/
theorem C7_flat_listing_wit :
    build_file_tree (fun _ => Except.error ()) 1
      [RawEntry.ok "a.py" "file" "a.py" 4, RawEntry.ok "b.md" "file" "b.md" 6]
      Children.nil
      = Except.ok (fileNodesOf
          [RawEntry.ok "a.py" "file" "a.py" 4, RawEntry.ok "b.md" "file" "b.md" 6])
    ∧ count_files (fileNodesOf
        [RawEntry.ok "a.py" "file" "a.py" 4, RawEntry.ok "b.md" "file" "b.md" 6]) = 2 :=
  C7_flat_listing (fun _ => Except.error ()) 1
    [RawEntry.ok "a.py" "file" "a.py" 4, RawEntry.ok "b.md" "file" "b.md" 6]
    (by decide) (by decide)

/-! ## Claim C6 — files_with_extension -/

/-- C6 counterexample: a root listing with the single file `A.PY`; the
claimed case-insensitive filter over the built tree returns its path, but
the source's walk uses the case-sensitive `str.endswith`, so the file is
not reported for the extension `.py`. -/
theorem C6_cex :
    get_files_by_extension
        (fun p => if p = "" then Except.ok [RawEntry.ok "A.PY" "file" "A.PY" 5]
                  else Except.error ()) ".py" 1 = []
    ∧ build_file_tree
        (fun p => if p = "" then Except.ok [RawEntry.ok "A.PY" "file" "A.PY" 5]
                  else Except.error ()) 1
        [RawEntry.ok "A.PY" "file" "A.PY" 5] Children.nil
      = Except.ok (Children.cons "A.PY" (FNode.file "A.PY" 5 "Python") Children.nil)
    ∧ specFilesCI ".py"
        (Children.cons "A.PY" (FNode.file "A.PY" 5 "Python") Children.nil)
      = ["A.PY"] := by
  refine ⟨by decide, by decide, by decide⟩

/-- C6 (amended): for every well-shaped listing family (entries well formed
with type `file` or `dir` and pairwise-distinct names per directory),
`files_with_extension` returns exactly the paths of the `File` nodes of the
built tree whose name ends in `ext` matched **case-sensitively**, in
depth-first pre-order. -/
theorem C6_files_by_ext (get : String → Except Unit (List RawEntry))
    (ext : String) (fuel : Nat) (entries : List RawEntry)
    (h : listingsOK get fuel entries = true) :
    build_file_tree get fuel entries Children.nil
      = Except.ok (nodesOf get fuel entries)
    ∧ (searchLevel ext (fun q => searchChild get ext fuel q) entries).1
        = specFilesCS ext (nodesOf get fuel entries)
    ∧ (get "" = Except.ok entries →
        get_files_by_extension get ext fuel
          = specFilesCS ext (nodesOf get fuel entries)) := by
  have hparts := levelOK_parts (listingsOK_level h)
  refine ⟨build_ok hparts.1 hparts.2, search_spec get ext fuel entries h, ?_⟩
  intro hget
  rw [get_files_by_extension, hget]
  exact search_spec get ext fuel entries h

/-- C6 witness: a repository with a subdirectory, a matching file at both
levels, a non-matching file, and a file whose extension matches only
case-insensitively. -/
theorem C6_files_by_ext_wit :
    get_files_by_extension
        (fun p => if p = "" then
                    Except.ok [RawEntry.ok "src" "dir" "src" 0,
                               RawEntry.ok "a.py" "file" "a.py" 1,
                               RawEntry.ok "R.PY" "file" "R.PY" 2]
                  else if p = "src" then
                    Except.ok [RawEntry.ok "b.py" "file" "src/b.py" 3,
                               RawEntry.ok "c.txt" "file" "src/c.txt" 4]
                  else Except.error ()) ".py" 2
      = ["src/b.py", "a.py"] := by
  have h := C6_files_by_ext
    (fun p => if p = "" then
                Except.ok [RawEntry.ok "src" "dir" "src" 0,
                           RawEntry.ok "a.py" "file" "a.py" 1,
                           RawEntry.ok "R.PY" "file" "R.PY" 2]
              else if p = "src" then
                Except.ok [RawEntry.ok "b.py" "file" "src/b.py" 3,
                           RawEntry.ok "c.txt" "file" "src/c.txt" 4]
              else Except.error ()) ".py" 2
    [RawEntry.ok "src" "dir" "src" 0, RawEntry.ok "a.py" "file" "a.py" 1,
     RawEntry.ok "R.PY" "file" "R.PY" 2] (by decide)
  exact (h.2.2 rfl).trans (by decide)

/-! ## Claim C8 — the size threshold in the dependency walk -/

/-- C8: during the dependency walk, a file whose fetched content object
reports a size above 1,000,000 bytes is skipped before its text is decoded
— the result is empty whatever the text field holds — and consequently no
edge in the accumulated sequence carries that file's path. -/
theorem C8_size_threshold (getBlob : String → Except Unit FileBlob)
    (astP : String → Option (List PyNode)) (files : List String)
    (fp : String) (b : FileBlob)
    (hb : getBlob fp = Except.ok b) (hs : b.size > 1000000) :
    processFile getBlob astP fp = []
    ∧ ∀ d ∈ analyze_dependencies getBlob astP files, d.from_file ≠ fp := by
  have hpf : processFile getBlob astP fp = [] := by
    simp [processFile, hb, hs]
  refine ⟨hpf, ?_⟩
  intro d hd hdf
  rw [analyze_dependencies, mem_flatMapL] at hd
  obtain ⟨x, _, hdx⟩ := hd
  have hfrom : d.from_file = x := by
    unfold processFile at hdx
    cases hgx : getBlob x with
    | error e => rw [hgx] at hdx; simp at hdx
    | ok b' =>
      rw [hgx] at hdx
      have hdx1 : d ∈ (if b'.size > 1000000 then []
          else match b'.text with
               | Except.error _ => []
               | Except.ok content => extract_python_imports astP content x) := hdx
      by_cases hsz : b'.size > 1000000
      · rw [if_pos hsz] at hdx1; simp at hdx1
      · rw [if_neg hsz] at hdx1
        cases ht : b'.text with
        | error e =>
          rw [ht] at hdx1
          simp at hdx1
        | ok content =>
          rw [ht] at hdx1
          exact extract_from_file hdx1
  have hx : x = fp := by rw [← hfrom, hdf]
  subst hx
  rw [hpf] at hdx
  simp at hdx

/-- C8 witness: a 2,000,000-byte file whose text would parse to an import. -/
theorem C8_size_threshold_wit :
    processFile (fun _ => Except.ok ⟨2000000, Except.ok "import os"⟩)
      (fun _ => none) "big.py" = [] :=
  (C8_size_threshold (fun _ => Except.ok ⟨2000000, Except.ok "import os"⟩)
    (fun _ => none) ["big.py"] "big.py" ⟨2000000, Except.ok "import os"⟩
    rfl (by decide)).1

/-! ## Claim C9 — language classification -/

theorem lookupStr_none : ∀ (l : List (String × String)) (k : String),
    (∀ q ∈ l, q.1 ≠ k) → lookupStr l k = none := by
  intro l
  induction l with
  | nil => intro k _; rfl
  | cons q t ih =>
    intro k h
    obtain ⟨a, b⟩ := q
    have ha : a ≠ k := h (a, b) (List.mem_cons_self _ _)
    simp [lookupStr, ha]
    exact ih k (fun q' hq' => h q' (List.mem_cons_of_mem _ hq'))

/-- C9: language classification is a pure lookup of the file name's
suffix: it depends only on the lower-cased suffix, a suffix that matches no
key of the static table (case-insensitively) yields `"Unknown"`, and the
file node built for a listing entry records exactly the size reported by
the entry together with the detected language. -/
theorem C9_language_lookup (get : String → Except Unit (List RawEntry))
    (fuel : Nat) (n1 n2 nm ty p : String) (s : Nat) :
    (strLower (strSuffix n1) = strLower (strSuffix n2) →
      detect_language n1 = detect_language n2)
    ∧ ((∀ q ∈ extTable, q.1 ≠ strLower (strSuffix n1)) →
        detect_language n1 = "Unknown")
    ∧ (ty ≠ "dir" →
        nodeOf get fuel (RawEntry.ok nm ty p s)
          = FNode.file p s (detect_language nm)) := by
  refine ⟨?_, ?_, ?_⟩
  · intro h
    rw [detect_language, detect_language, h]
  · intro h
    rw [detect_language, lookupStr_none _ _ h]
    rfl
  · intro h
    simp [nodeOf, h]

/-- C9 witness: `A.PY` classifies like `a.py` (as `Python`), an unknown
extension yields `Unknown`, and a concrete listing entry becomes a file
node of the reported size. -/
theorem C9_language_lookup_wit :
    detect_language "A.PY" = detect_language "a.py"
    ∧ detect_language "A.PY" = "Python"
    ∧ detect_language "x.zzz" = "Unknown"
    ∧ nodeOf (fun _ => Except.error ()) 0 (RawEntry.ok "m.py" "file" "src/m.py" 42)
        = FNode.file "src/m.py" 42 (detect_language "m.py") := by
  have h := C9_language_lookup (fun _ => Except.error ()) 0 "A.PY" "a.py"
    "m.py" "file" "src/m.py" 42
  have h2 := C9_language_lookup (fun _ => Except.error ()) 0 "x.zzz" "a.py"
    "m.py" "file" "src/m.py" 42
  exact ⟨h.1 (by decide), by decide, h2.2.1 (by decide), h.2.2 (by decide)⟩

/-! ## Claim C10 — names without a real suffix -/

theorem lastIdxOf_none : ∀ {cs : List Char} {c : Char},
    chMem cs c = false → lastIdxOf cs c = none := by
  intro cs c
  induction cs with
  | nil => intro _; rfl
  | cons x tl ih =>
    intro h
    cases hx : (x == c) with
    | true => rw [chMem, hx] at h; simp at h
    | false =>
      have htl : chMem tl c = false := by
        rw [chMem, hx] at h
        simpa using h
      simp [lastIdxOf, ih htl, hx]

/-- C10: a file name with an empty `pathlib` suffix classifies as
`"Unknown"`; a name containing no dot has an empty suffix, and so does a
dotfile consisting of a single leading dot followed by a dot-free tail
(such as a file literally named `.py`), even though such a name ends in a
tabled extension string. -/
theorem C10_no_suffix (n t : String) :
    (strSuffix n = "" → detect_language n = "Unknown")
    ∧ (chMem n.toList '.' = false → strSuffix n = "")
    ∧ (chMem t.toList '.' = false →
        strSuffix (String.mk ('.' :: t.toList)) = "") := by
  refine ⟨?_, ?_, ?_⟩
  · intro h
    rw [detect_language, h]
    rfl
  · intro h
    have hn : lastIdxOf n.data '.' = none := lastIdxOf_none h
    simp [strSuffix, hn]
  · intro h
    have hn : lastIdxOf t.data '.' = none := lastIdxOf_none h
    simp [strSuffix, lastIdxOf, hn]

/-- C10 witness: the dotfile `.py` and the extensionless `Makefile` both
classify as `Unknown`, although `.py` ends in the tabled string `.py`. -/
theorem C10_no_suffix_wit :
    detect_language ".py" = "Unknown"
    ∧ detect_language "Makefile" = "Unknown"
    ∧ strEndsWith ".py" ".py" = true
    ∧ strSuffix ".py" = "" := by
  have h := C10_no_suffix "Makefile" "py"
  have h2 := C10_no_suffix ".py" "py"
  have hs : strSuffix (String.mk ('.' :: "py".toList)) = "" := h2.2.2 (by decide)
  exact ⟨h2.1 hs, h.1 (h.2.1 (by decide)), by decide, hs⟩
